import Mathlib

/-!
Verification of the union-find program `src/union_find.c` of the Vexum
repository.  The C program maintains global arrays `parent` and `rank`, a
global `component_count`, and a main loop that decodes XOR-obfuscated
queries and alternates between merge and connectivity-check queries.

The embedding below models `parent` and `rank` as functions `Nat → Nat`
(the C arrays restricted to the live prefix `[0, n)`; global arrays are
zero-initialized beyond `n`), `component_count` as an `Int` (a C `int`),
and the recursive `find` with path compression as a fuel-indexed function,
with fuel `n`; a proved invariant shows the fuel is never exhausted on
elements of `[0, n)`.  The query decoding is modelled faithfully to C
`long long` arithmetic: XOR on two's-complement 64-bit values and the
truncated remainder `%` (Lean's `Int.tmod`).
-/

namespace Vexum

/-- Pointwise update of a map, modelling a single C array store `f[a] = v`. -/
def update (f : Nat → Nat) (a v : Nat) : Nat → Nat :=
  fun z => if z = a then v else f z

/-- The union-find state: the live size `n` (the C variable `N`), the
`parent` and `rank` arrays, and `component_count` (a C `int`). -/
structure UF where
  n : Nat
  parent : Nat → Nat
  rank : Nat → Nat
  count : Int

/-- `find` with path compression, fuel-indexed.  Mirrors
`int find(int x) { if (parent[x] != x) { parent[x] = find(parent[x]); } return parent[x]; }`:
the recursive call works on the current array, and on the way back every
visited non-root node is re-pointed to the returned root.  Returns the
root together with the updated parent array. -/
def findAux (p : Nat → Nat) : Nat → Nat → Nat × (Nat → Nat)
  | 0, x => (x, p)
  | fuel+1, x =>
    if p x = x then (x, p)
    else ((findAux p fuel (p x)).1,
          update (findAux p fuel (p x)).2 x (findAux p fuel (p x)).1)

/-- `find` on a state, run with fuel `s.n` (sufficient under the invariant). -/
def find (s : UF) (x : Nat) : Nat × UF :=
  ((findAux s.parent s.n x).1, { s with parent := (findAux s.parent s.n x).2 })

/-- `void union_sets(int x, int y)` from the source: two finds, then
union by rank (strictly larger rank absorbs; on a tie `rootX` absorbs
`rootY` and `rank[rootX]++`), and `component_count--` on a real merge. -/
def union_sets (s : UF) (x y : Nat) : UF :=
  let rootX := (find s x).1
  let s1 := (find s x).2
  let rootY := (find s1 y).1
  let s2 := (find s1 y).2
  if rootX ≠ rootY then
    if s2.rank rootX > s2.rank rootY then
      { s2 with parent := update s2.parent rootY rootX, count := s2.count - 1 }
    else if s2.rank rootX < s2.rank rootY then
      { s2 with parent := update s2.parent rootX rootY, count := s2.count - 1 }
    else
      { s2 with parent := update s2.parent rootY rootX,
                rank := update s2.rank rootX (s2.rank rootX + 1),
                count := s2.count - 1 }
  else s2

/-- `void initialize(int n)` from the source: `component_count = n`,
`parent[i] = i` and `rank[i] = 0` for `i < n`.  Beyond `n` the C global
arrays stay zero-initialized. -/
def initUF (n : Nat) : UF :=
  { n := n
    parent := fun i => if i < n then i else 0
    rank := fun _ => 0
    count := (n : Int) }

/-- `d`-fold application of the parent map (walking `d` steps up the tree). -/
def iterP (p : Nat → Nat) : Nat → Nat → Nat
  | 0, x => x
  | d+1, x => iterP p d (p x)

/-- The structural parent/rank invariant: parents of live nodes are live,
and the rank strictly increases from a non-root to its parent. -/
def PInv (n : Nat) (p r : Nat → Nat) : Prop :=
  (∀ x, x < n → p x < n) ∧ (∀ x, x < n → p x ≠ x → r x < r (p x))

/-- The set of roots among the live elements. -/
def roots (s : UF) : Finset Nat :=
  (Finset.range s.n).filter (fun x => s.parent x = x)

/-- The full state invariant: structural invariant plus
`component_count` = number of roots. -/
def Inv (s : UF) : Prop :=
  PInv s.n s.parent s.rank ∧ s.count = ((roots s).card : Int)

/-- The root of `x` obtained by walking `n` parent steps; under `PInv`
this is the representative of `x`. -/
def rootD (n : Nat) (p : Nat → Nat) (x : Nat) : Nat := iterP p n x

theorem update_self (f : Nat → Nat) (a v : Nat) : update f a v a = v := by
  simp [update]

theorem update_other (f : Nat → Nat) (a v z : Nat) (h : z ≠ a) :
    update f a v z = f z := by
  simp [update, h]

theorem iterP_add (p : Nat → Nat) (a b x : Nat) :
    iterP p (a + b) x = iterP p b (iterP p a x) := by
  induction a generalizing x with
  | zero => simp [iterP]
  | succ a ih =>
    have : a + 1 + b = (a + b) + 1 := by omega
    rw [this, iterP, iterP, ih]

theorem iterP_succ_out (p : Nat → Nat) (d x : Nat) :
    iterP p (d + 1) x = p (iterP p d x) := by
  rw [iterP_add p d 1 x]; rfl

theorem iterP_fix (p : Nat → Nat) (d : Nat) {y : Nat} (h : p y = y) :
    iterP p d y = y := by
  induction d with
  | zero => rfl
  | succ d ih => rw [iterP, h, ih]

theorem iterP_lt {n : Nat} {p r : Nat → Nat} (hp : PInv n p r) (d : Nat)
    {x : Nat} (hx : x < n) : iterP p d x < n := by
  induction d generalizing x with
  | zero => exact hx
  | succ d ih => rw [iterP]; exact ih (hp.1 x hx)

theorem rank_strict_chain {n : Nat} {p r : Nat → Nat} (hp : PInv n p r)
    {x : Nat} (hx : x < n) {i j : Nat} (hij : i < j)
    (hnr : ∀ d, d < j → p (iterP p d x) ≠ iterP p d x) :
    r (iterP p i x) < r (iterP p j x) := by
  induction j with
  | zero => omega
  | succ j ih =>
    have hstep : r (iterP p j x) < r (iterP p (j + 1) x) := by
      rw [iterP_succ_out]
      exact hp.2 (iterP p j x) (iterP_lt hp j hx)
        (hnr j (Nat.lt_succ_self j))
    rcases Nat.lt_or_ge i j with hij' | hij'
    · exact lt_trans (ih hij' (fun d hd => hnr d (Nat.lt_succ_of_lt hd))) hstep
    · have : i = j := by omega
      rw [this]; exact hstep

/-- Under the structural invariant every live element reaches a root in
fewer than `n` parent steps (pigeonhole on the strictly increasing ranks). -/
theorem reach_root {n : Nat} {p r : Nat → Nat} (hp : PInv n p r)
    {x : Nat} (hx : x < n) :
    ∃ d, d < n ∧ p (iterP p d x) = iterP p d x := by
  by_contra hcon
  push_neg at hcon
  have hnr : ∀ d, d < n → p (iterP p d x) ≠ iterP p d x := by
    intro d hd
    exact hcon d hd
  have hinj : Function.Injective
      (fun i : Fin (n + 1) => (⟨iterP p i.1 x, iterP_lt hp i.1 hx⟩ : Fin n)) := by
    intro i j hij
    by_contra hne
    have hlt : ∀ a b : Fin (n + 1), a.1 < b.1 →
        (iterP p a.1 x = iterP p b.1 x) → False := by
      intro a b hab heq
      have hb : b.1 ≤ n := Nat.lt_succ_iff.mp b.2
      have := rank_strict_chain hp hx hab
        (fun d hd => hnr d (Nat.lt_of_lt_of_le hd hb))
      rw [heq] at this
      omega
    have heq : iterP p i.1 x = iterP p j.1 x := congrArg Fin.val hij
    rcases Nat.lt_trichotomy i.1 j.1 with h | h | h
    · exact hlt i j h heq
    · exact hne (Fin.ext h)
    · exact hlt j i h heq.symm
  have := Fintype.card_le_of_injective _ hinj
  simp at this

theorem rootD_isRoot {n : Nat} {p r : Nat → Nat} (hp : PInv n p r)
    {x : Nat} (hx : x < n) : p (rootD n p x) = rootD n p x := by
  obtain ⟨d, hd, hroot⟩ := reach_root hp hx
  have hsplit : n = d + (n - d) := by omega
  have : rootD n p x = iterP p d x := by
    rw [rootD, hsplit, iterP_add, iterP_fix p (n - d) hroot]
  rw [this]; exact hroot

theorem rootD_eq_iter {n : Nat} (p : Nat → Nat) {d : Nat} (hd : d ≤ n)
    {x : Nat} (hroot : p (iterP p d x) = iterP p d x) :
    rootD n p x = iterP p d x := by
  have hsplit : n = d + (n - d) := by omega
  rw [rootD, hsplit, iterP_add, iterP_fix p (n - d) hroot]

theorem rootD_fix {n : Nat} (p : Nat → Nat) {x : Nat} (h : p x = x) :
    rootD n p x = x := iterP_fix p n h

theorem rootD_lt {n : Nat} {p r : Nat → Nat} (hp : PInv n p r)
    {x : Nat} (hx : x < n) : rootD n p x < n := iterP_lt hp n hx

theorem rootD_step {n : Nat} {p r : Nat → Nat} (hp : PInv n p r)
    {x : Nat} (hx : x < n) : rootD n p (p x) = rootD n p x := by
  have h1 : rootD n p (p x) = iterP p (n + 1) x := by
    rw [rootD]; rw [Nat.add_comm n 1, iterP_add]; rfl
  rw [h1, iterP_succ_out]
  exact rootD_isRoot hp hx

theorem rank_lt_of_reach {n : Nat} {p r : Nat → Nat} (hp : PInv n p r) :
    ∀ d x, x < n → p x ≠ x → p (iterP p d x) = iterP p d x →
      r x < r (iterP p d x) := by
  intro d
  induction d with
  | zero =>
    intro x hx hnx hroot
    exact absurd hroot hnx
  | succ d ih =>
    intro x hx hnx hroot
    have hpx : p x < n := hp.1 x hx
    have hbase : r x < r (p x) := hp.2 x hx hnx
    by_cases hpr : p (p x) = p x
    · have : iterP p (d + 1) x = p x := by
        rw [iterP, iterP_fix p d hpr]
      rw [this]; exact hbase
    · have hstep : iterP p (d + 1) x = iterP p d (p x) := rfl
      rw [hstep] at hroot ⊢
      exact lt_trans hbase (ih (p x) hpx hpr hroot)

theorem rank_lt_rootD {n : Nat} {p r : Nat → Nat} (hp : PInv n p r)
    {z : Nat} (hz : z < n) (hnz : p z ≠ z) :
    r z < r (rootD n p z) := by
  obtain ⟨d, hd, hroot⟩ := reach_root hp hz
  rw [rootD_eq_iter p (Nat.le_of_lt hd) hroot]
  exact rank_lt_of_reach hp d z hz hnz hroot

/-- Main characterization of `findAux`: with enough fuel it returns the
root of `x`, and every entry of the returned array is either untouched or
re-pointed to that root, the latter only for non-root nodes whose root it
already was. -/
theorem findAux_spec {n : Nat} {p r : Nat → Nat} (hp : PInv n p r) :
    ∀ fuel x, x < n → (∃ d, d < fuel ∧ p (iterP p d x) = iterP p d x) →
      (findAux p fuel x).1 = rootD n p x ∧
      (∀ z, (findAux p fuel x).2 z = p z ∨
        ((findAux p fuel x).2 z = rootD n p x ∧ p z ≠ z ∧ z < n ∧
         rootD n p z = rootD n p x)) := by
  intro fuel
  induction fuel with
  | zero =>
    intro x _ hre
    obtain ⟨d, hd, _⟩ := hre
    omega
  | succ fuel ih =>
    intro x hx hre
    by_cases hx0 : p x = x
    · constructor
      · simp [findAux, hx0, rootD_fix p hx0]
      · intro z
        left
        simp [findAux, hx0]
    · obtain ⟨d, hd, hroot⟩ := hre
      have hdpos : d ≠ 0 := by
        intro h0
        rw [h0] at hroot
        exact hx0 hroot
      obtain ⟨d0, rfl⟩ : ∃ d0, d = d0 + 1 := ⟨d - 1, by omega⟩
      have hre' : ∃ e, e < fuel ∧ p (iterP p e (p x)) = iterP p e (p x) :=
        ⟨d0, by omega, hroot⟩
      have hih := ih (p x) (hp.1 x hx) hre'
      have hrootstep : rootD n p (p x) = rootD n p x := rootD_step hp hx
      constructor
      · simp only [findAux, if_neg hx0]
        rw [hih.1, hrootstep]
      · intro z
        simp only [findAux, if_neg hx0]
        by_cases hzx : z = x
        · right
          subst hzx
          refine ⟨?_, hx0, hx, rfl⟩
          rw [update_self, hih.1, hrootstep]
        · rw [update_other _ _ _ _ hzx]
          rcases hih.2 z with h | ⟨h1, h2, h3, h4⟩
          · left; exact h
          · right
            exact ⟨by rw [h1, hrootstep], h2, h3, by rw [h4, hrootstep]⟩

theorem find_n (s : UF) (x : Nat) : (find s x).2.n = s.n := rfl

theorem find_rank (s : UF) (x : Nat) : (find s x).2.rank = s.rank := rfl

theorem find_count (s : UF) (x : Nat) : (find s x).2.count = s.count := rfl

/-- `find` returns the representative (the `n`-step iterate of `parent`). -/
theorem find_fst (s : UF) (hs : Inv s) {x : Nat} (hx : x < s.n) :
    (find s x).1 = rootD s.n s.parent x := by
  obtain ⟨d, hd, hroot⟩ := reach_root hs.1 hx
  exact (findAux_spec hs.1 s.n x hx ⟨d, hd, hroot⟩).1

theorem find_parent_cases (s : UF) (hs : Inv s) {x : Nat} (hx : x < s.n) :
    ∀ z, (find s x).2.parent z = s.parent z ∨
      ((find s x).2.parent z = rootD s.n s.parent x ∧ s.parent z ≠ z ∧
       z < s.n ∧ rootD s.n s.parent z = rootD s.n s.parent x) := by
  obtain ⟨d, hd, hroot⟩ := reach_root hs.1 hx
  exact (findAux_spec hs.1 s.n x hx ⟨d, hd, hroot⟩).2

/-- Path compression never creates or destroys a root. -/
theorem find_roots_iff (s : UF) (hs : Inv s) {x : Nat} (hx : x < s.n) :
    ∀ z, ((find s x).2.parent z = z ↔ s.parent z = z) := by
  intro z
  rcases find_parent_cases s hs hx z with h | ⟨h1, h2, _, _⟩
  · rw [h]
  · constructor
    · intro hz
      rw [h1] at hz
      have hroot : s.parent (rootD s.n s.parent x) = rootD s.n s.parent x :=
        rootD_isRoot hs.1 hx
      rw [← hz]
      exact hroot
    · intro hz
      exact absurd hz h2

theorem find_PInv (s : UF) (hs : Inv s) {x : Nat} (hx : x < s.n) :
    PInv s.n (find s x).2.parent s.rank := by
  constructor
  · intro z hz
    rcases find_parent_cases s hs hx z with h | ⟨h1, _, _, _⟩
    · rw [h]; exact hs.1.1 z hz
    · rw [h1]; exact rootD_lt hs.1 hx
  · intro z hz hnz
    rcases find_parent_cases s hs hx z with h | ⟨h1, h2, h3, h4⟩
    · rw [h] at hnz ⊢
      exact hs.1.2 z hz hnz
    · rw [h1]
      calc s.rank z < s.rank (rootD s.n s.parent z) := rank_lt_rootD hs.1 h3 h2
        _ = s.rank (rootD s.n s.parent x) := by rw [h4]

/-- Path compression preserves every element's representative. -/
theorem find_rootD_eq (s : UF) (hs : Inv s) {x : Nat} (hx : x < s.n) :
    ∀ z, z < s.n →
      rootD s.n (find s x).2.parent z = rootD s.n s.parent z := by
  have hp' : PInv s.n (find s x).2.parent s.rank := find_PInv s hs hx
  have hroots := find_roots_iff s hs hx
  have main : ∀ d z, z < s.n → s.parent (iterP s.parent d z) = iterP s.parent d z →
      rootD s.n (find s x).2.parent z = rootD s.n s.parent z := by
    intro d
    induction d with
    | zero =>
      intro z _ hz0
      simp only [iterP] at hz0
      rw [rootD_fix _ hz0, rootD_fix _ ((hroots z).mpr hz0)]
    | succ d ih =>
      intro z hz hroot
      by_cases hz0 : s.parent z = z
      · rw [rootD_fix _ hz0, rootD_fix _ ((hroots z).mpr hz0)]
      · rcases find_parent_cases s hs hx z with h | ⟨h1, _, _, h4⟩
        · have hstep' : rootD s.n (find s x).2.parent ((find s x).2.parent z)
              = rootD s.n (find s x).2.parent z := rootD_step hp' hz
          have hstep : rootD s.n s.parent (s.parent z) = rootD s.n s.parent z :=
            rootD_step hs.1 hz
          rw [← hstep', h, ih (s.parent z) (hs.1.1 z hz) hroot, hstep]
        · have hstep' : rootD s.n (find s x).2.parent ((find s x).2.parent z)
              = rootD s.n (find s x).2.parent z := rootD_step hp' hz
          have hRroot : s.parent (rootD s.n s.parent x) = rootD s.n s.parent x :=
            rootD_isRoot hs.1 hx
          rw [← hstep', h1, rootD_fix _ ((hroots _).mpr hRroot), h4]
  intro z hz
  obtain ⟨d, _, hroot⟩ := reach_root hs.1 hz
  exact main d z hz hroot

/-- Path compression leaves the set of roots unchanged. -/
theorem find_roots_finset (s : UF) (hs : Inv s) {x : Nat} (hx : x < s.n) :
    roots (find s x).2 = roots s := by
  apply Finset.filter_congr
  intro z _
  exact find_roots_iff s hs hx z

/-- `find` preserves the full invariant. -/
theorem find_Inv (s : UF) (hs : Inv s) {x : Nat} (hx : x < s.n) :
    Inv (find s x).2 := by
  constructor
  · exact find_PInv s hs hx
  · rw [find_count, find_roots_finset s hs hx]
    exact hs.2

theorem mem_roots {s : UF} {z : Nat} :
    z ∈ roots s ↔ z < s.n ∧ s.parent z = z := by
  simp [roots, Finset.mem_filter, Finset.mem_range, and_comm]

/-- The state after the two `find` calls inside `union_sets` satisfies the
invariant. -/
theorem s2_Inv (s : UF) (hs : Inv s) {x y : Nat} (hx : x < s.n) (hy : y < s.n) :
    Inv (find (find s x).2 y).2 :=
  find_Inv (find s x).2 (find_Inv s hs hx) hy

theorem s2_roots_finset (s : UF) (hs : Inv s) {x y : Nat}
    (hx : x < s.n) (hy : y < s.n) :
    roots (find (find s x).2 y).2 = roots s := by
  rw [find_roots_finset (find s x).2 (find_Inv s hs hx) hy,
      find_roots_finset s hs hx]

theorem s2_rootD_eq (s : UF) (hs : Inv s) {x y : Nat}
    (hx : x < s.n) (hy : y < s.n) {z : Nat} (hz : z < s.n) :
    rootD s.n (find (find s x).2 y).2.parent z = rootD s.n s.parent z := by
  have ha : rootD s.n (find (find s x).2 y).2.parent z
      = rootD s.n (find s x).2.parent z :=
    find_rootD_eq (find s x).2 (find_Inv s hs hx) hy z hz
  rw [ha]
  exact find_rootD_eq s hs hx z hz

theorem s2_fst (s : UF) (hs : Inv s) {x y : Nat} (hx : x < s.n) (hy : y < s.n) :
    (find (find s x).2 y).1 = rootD s.n s.parent y := by
  rw [find_fst (find s x).2 (find_Inv s hs hx) hy]
  exact find_rootD_eq s hs hx y hy

/-- When the two representatives already agree, `union_sets` is exactly the
state left behind by its two `find` calls. -/
theorem union_eq_noop (s : UF) (hs : Inv s) {x y : Nat} (hx : x < s.n) (hy : y < s.n)
    (hre : rootD s.n s.parent x = rootD s.n s.parent y) :
    union_sets s x y = (find (find s x).2 y).2 := by
  have h1 : (find s x).1 = rootD s.n s.parent x := find_fst s hs hx
  have h2 : (find (find s x).2 y).1 = rootD s.n s.parent y := s2_fst s hs hx hy
  simp only [union_sets, h1, h2, hre]
  simp

/-- When the two representatives differ, `union_sets` links by rank and
decrements the count, on top of the compressed state. -/
theorem union_eq_merge (s : UF) (hs : Inv s) {x y : Nat} (hx : x < s.n) (hy : y < s.n)
    (hne : rootD s.n s.parent x ≠ rootD s.n s.parent y) :
    union_sets s x y =
      (if s.rank (rootD s.n s.parent x) > s.rank (rootD s.n s.parent y) then
        { n := s.n,
          parent := update (find (find s x).2 y).2.parent
            (rootD s.n s.parent y) (rootD s.n s.parent x),
          rank := s.rank, count := s.count - 1 }
      else if s.rank (rootD s.n s.parent x) < s.rank (rootD s.n s.parent y) then
        { n := s.n,
          parent := update (find (find s x).2 y).2.parent
            (rootD s.n s.parent x) (rootD s.n s.parent y),
          rank := s.rank, count := s.count - 1 }
      else
        { n := s.n,
          parent := update (find (find s x).2 y).2.parent
            (rootD s.n s.parent y) (rootD s.n s.parent x),
          rank := update s.rank (rootD s.n s.parent x)
            (s.rank (rootD s.n s.parent x) + 1),
          count := s.count - 1 }) := by
  have h1 : (find s x).1 = rootD s.n s.parent x := find_fst s hs hx
  have h2 : (find (find s x).2 y).1 = rootD s.n s.parent y := s2_fst s hs hx hy
  simp only [union_sets, h1, h2]
  rw [if_pos hne]
  rfl

/-- Re-pointing a root `a` to some other node `b` removes exactly `a` from
the set of roots. -/
theorem link_roots {n : Nat} (p : Nat → Nat) {a b : Nat} (hab : b ≠ a) :
    (Finset.range n).filter (fun z => update p a b z = z) =
      ((Finset.range n).filter (fun z => p z = z)).erase a := by
  ext z
  simp only [Finset.mem_filter, Finset.mem_erase, Finset.mem_range]
  by_cases hza : z = a
  · subst hza
    simp [update_self, hab]
  · simp [update_other p a b z hza, hza]

theorem s2_roots_iff (s : UF) (hs : Inv s) {x y : Nat} (hx : x < s.n) (hy : y < s.n) :
    ∀ z, ((find (find s x).2 y).2.parent z = z ↔ s.parent z = z) := by
  intro z
  rw [find_roots_iff (find s x).2 (find_Inv s hs hx) hy z, find_roots_iff s hs hx z]

theorem union_n (s : UF) (x y : Nat) : (union_sets s x y).n = s.n := by
  simp only [union_sets]
  split
  · split
    · rfl
    · split
      · rfl
      · rfl
  · rfl

/-- Linking a root `a` under a node `b` preserves the invariant (with a
possibly updated rank map `r'`) and decrements the root count. -/
theorem linked_Inv {n : Nat} {p r' r : Nat → Nat} {c : Int} {a b : Nat}
    (hp : PInv n p r)
    (hcount : c = (((Finset.range n).filter (fun z => p z = z)).card : Int))
    (hb : b < n) (hpa : p a = a) (hab : b ≠ a)
    (hsmall : r' a < r' b)
    (hmono : ∀ z, z < n → p z ≠ z → r' z < r' (p z))
    (hain : a ∈ (Finset.range n).filter (fun z => p z = z)) :
    Inv { n := n, parent := update p a b, rank := r', count := c - 1 } := by
  have hpos : (1 : Nat) ≤ ((Finset.range n).filter (fun z => p z = z)).card :=
    Finset.card_pos.mpr ⟨a, hain⟩
  refine ⟨⟨?_, ?_⟩, ?_⟩
  · intro z hz
    show update p a b z < n
    by_cases hza : z = a
    · subst hza; rw [update_self]; exact hb
    · rw [update_other p a b z hza]; exact hp.1 z hz
  · intro z hz hnz
    show r' z < r' (update p a b z)
    by_cases hza : z = a
    · subst hza; rw [update_self]; exact hsmall
    · rw [update_other p a b z hza]
      refine hmono z hz ?_
      intro hpz
      apply hnz
      show update p a b z = z
      rw [update_other p a b z hza]; exact hpz
  · show c - 1 = (((Finset.range n).filter (fun z => update p a b z = z)).card : Int)
    rw [link_roots p hab, Finset.card_erase_of_mem hain, hcount,
        Nat.cast_sub hpos, Nat.cast_one]

/-- On distinct representatives, `union_sets` preserves the invariant and
decrements `component_count` by exactly one. -/
theorem union_merge_Inv (s : UF) (hs : Inv s) {x y : Nat} (hx : x < s.n) (hy : y < s.n)
    (hne : rootD s.n s.parent x ≠ rootD s.n s.parent y) :
    Inv (union_sets s x y) ∧ (union_sets s x y).count = s.count - 1 := by
  rw [union_eq_merge s hs hx hy hne]
  have hp2 : PInv s.n (find (find s x).2 y).2.parent s.rank := (s2_Inv s hs hx hy).1
  have hriff := s2_roots_iff s hs hx hy
  have hrX : rootD s.n s.parent x < s.n := rootD_lt hs.1 hx
  have hrY : rootD s.n s.parent y < s.n := rootD_lt hs.1 hy
  have hrootX2 : (find (find s x).2 y).2.parent (rootD s.n s.parent x)
      = rootD s.n s.parent x := (hriff _).mpr (rootD_isRoot hs.1 hx)
  have hrootY2 : (find (find s x).2 y).2.parent (rootD s.n s.parent y)
      = rootD s.n s.parent y := (hriff _).mpr (rootD_isRoot hs.1 hy)
  have hmemX : rootD s.n s.parent x ∈
      (Finset.range s.n).filter (fun z => (find (find s x).2 y).2.parent z = z) := by
    simp only [Finset.mem_filter, Finset.mem_range]
    exact ⟨hrX, hrootX2⟩
  have hmemY : rootD s.n s.parent y ∈
      (Finset.range s.n).filter (fun z => (find (find s x).2 y).2.parent z = z) := by
    simp only [Finset.mem_filter, Finset.mem_range]
    exact ⟨hrY, hrootY2⟩
  have hcp2 : s.count = ((((Finset.range s.n).filter
      (fun z => (find (find s x).2 y).2.parent z = z))).card : Int) := by
    show s.count = ((roots (find (find s x).2 y).2).card : Int)
    rw [s2_roots_finset s hs hx hy]
    exact hs.2
  by_cases hgt : s.rank (rootD s.n s.parent x) > s.rank (rootD s.n s.parent y)
  · rw [if_pos hgt]
    exact ⟨linked_Inv hp2 hcp2 hrX hrootY2 hne hgt hp2.2 hmemY, rfl⟩
  · rw [if_neg hgt]
    by_cases hlt : s.rank (rootD s.n s.parent x) < s.rank (rootD s.n s.parent y)
    · rw [if_pos hlt]
      exact ⟨linked_Inv hp2 hcp2 hrY hrootX2 hne.symm hlt hp2.2 hmemX, rfl⟩
    · rw [if_neg hlt]
      have heqr : s.rank (rootD s.n s.parent x) = s.rank (rootD s.n s.parent y) := by
        omega
      refine ⟨linked_Inv hp2 hcp2 hrX hrootY2 hne ?_ ?_ hmemY, rfl⟩
      · rw [update_other s.rank _ _ _ (fun h => hne (h.symm)), update_self]
        omega
      · intro z hz hnz
        have hzX : z ≠ rootD s.n s.parent x := by
          intro h
          rw [h] at hnz
          exact hnz hrootX2
        rw [update_other s.rank _ _ z hzX]
        by_cases hpzX : (find (find s x).2 y).2.parent z = rootD s.n s.parent x
        · rw [hpzX, update_self]
          have := hp2.2 z hz hnz
          rw [hpzX] at this
          omega
        · rw [update_other s.rank _ _ _ hpzX]
          exact hp2.2 z hz hnz

/-- `union_sets` preserves the invariant. -/
theorem union_Inv (s : UF) (hs : Inv s) {x y : Nat} (hx : x < s.n) (hy : y < s.n) :
    Inv (union_sets s x y) := by
  by_cases hre : rootD s.n s.parent x = rootD s.n s.parent y
  · rw [union_eq_noop s hs hx hy hre]
    exact s2_Inv s hs hx hy
  · exact (union_merge_Inv s hs hx hy hre).1

theorem union_count_noop (s : UF) (hs : Inv s) {x y : Nat} (hx : x < s.n) (hy : y < s.n)
    (hre : rootD s.n s.parent x = rootD s.n s.parent y) :
    (union_sets s x y).count = s.count := by
  rw [union_eq_noop s hs hx hy hre]
  rfl

/-- A C `long long` value reduced to its 64-bit two's-complement bit
pattern, as a natural number. -/
def toNat64 (a : Int) : Nat := (a % (2 ^ 64 : Int)).toNat

/-- Reinterpret a 64-bit pattern as a signed C `long long`. -/
def ofTwosComp (v : Nat) : Int :=
  if v < 2 ^ 63 then (v : Int) else (v : Int) - 2 ^ 64

/-- C `^` on two `long long` values: XOR of the two's-complement
bit patterns. -/
def xor64 (a b : Int) : Int := ofTwosComp (toNat64 a ^^^ toNat64 b)

/-- The query decoding of `main`: `int x = (a ^ F) % N; int y = (b ^ F) % N;`
followed by `if (x > y) swap`.  C `%` is the truncated remainder
(`Int.tmod`). -/
def decodePair (N : Nat) (F : Int) (a b : Int) : Int × Int :=
  let x := Int.tmod (xor64 a F) (N : Int)
  let y := Int.tmod (xor64 b F) (N : Int)
  if x > y then (y, x) else (x, y)

/-- The state of `main`'s loop: the union-find structure, the accumulator
`F` (a `long long`), and the lines printed so far. -/
structure MainState where
  uf : UF
  F : Int
  out : List String

/-- One iteration of the query loop for 0-based query index `i`: decode
`(x, y)`; on even `i` run `union_sets` then `F += component_count`; on odd
`i` print `1` or `0` according to `find(x) == find(y)`, then
`F += component_count`. -/
def stepQuery (i : Nat) (s : MainState) (q : Int × Int) : MainState :=
  if i % 2 = 0 then
    { uf := union_sets s.uf (decodePair s.uf.n s.F q.1 q.2).1.toNat
        (decodePair s.uf.n s.F q.1 q.2).2.toNat,
      F := s.F + (union_sets s.uf (decodePair s.uf.n s.F q.1 q.2).1.toNat
        (decodePair s.uf.n s.F q.1 q.2).2.toNat).count,
      out := s.out }
  else
    if (find s.uf (decodePair s.uf.n s.F q.1 q.2).1.toNat).1 =
        (find (find s.uf (decodePair s.uf.n s.F q.1 q.2).1.toNat).2
          (decodePair s.uf.n s.F q.1 q.2).2.toNat).1 then
      { uf := (find (find s.uf (decodePair s.uf.n s.F q.1 q.2).1.toNat).2
          (decodePair s.uf.n s.F q.1 q.2).2.toNat).2,
        F := s.F + (find (find s.uf (decodePair s.uf.n s.F q.1 q.2).1.toNat).2
          (decodePair s.uf.n s.F q.1 q.2).2.toNat).2.count,
        out := s.out ++ ["1"] }
    else
      { uf := (find (find s.uf (decodePair s.uf.n s.F q.1 q.2).1.toNat).2
          (decodePair s.uf.n s.F q.1 q.2).2.toNat).2,
        F := s.F + (find (find s.uf (decodePair s.uf.n s.F q.1 q.2).1.toNat).2
          (decodePair s.uf.n s.F q.1 q.2).2.toNat).2.count,
        out := s.out ++ ["0"] }

/-- The query loop from query index `i` onward. -/
def runQueries (i : Nat) (s : MainState) : List (Int × Int) → MainState
  | [] => s
  | q :: qs => runQueries (i + 1) (stepQuery i s q) qs

/-- The whole program on input `N` and the query list: initialized
structure, `F = 0`, no output, then the loop. -/
def runProgram (N : Nat) (qs : List (Int × Int)) : MainState :=
  runQueries 0 { uf := initUF N, F := 0, out := [] } qs

/-- The loop state just before 0-based query `i` is processed. -/
def stateAfter (N : Nat) (qs : List (Int × Int)) (i : Nat) : MainState :=
  runQueries 0 { uf := initUF N, F := 0, out := [] } (qs.take i)

/-- The decoding rule as the specification states it, on mathematical
natural numbers: `x = (a XOR F) mod N`, `y = (b XOR F) mod N`, swap if
`x > y`. -/
def specDecode (N F a b : Nat) : Nat × Nat :=
  let x := (a ^^^ F) % N
  let y := (b ^^^ F) % N
  if x > y then (y, x) else (x, y)

/-- Raw operands that fit a nonnegative 64-bit signed integer. -/
def GoodQ (q : Int × Int) : Prop :=
  0 ≤ q.1 ∧ q.1 < 2 ^ 63 ∧ 0 ≤ q.2 ∧ q.2 < 2 ^ 63

instance (q : Int × Int) : Decidable (GoodQ q) := by
  unfold GoodQ
  infer_instance

/-- Number of odd values in `[i, i + m)`: counts the connectivity-check
queries among `m` consecutive query indices starting at `i`. -/
def oddCount : Nat → Nat → Nat
  | _, 0 => 0
  | i, m + 1 => (if i % 2 = 1 then 1 else 0) + oddCount (i + 1) m

/-- A single structure operation, for stating invariants over arbitrary
`find`/`union` interleavings. -/
inductive Op where
  | findOp : Nat → Op
  | unionOp : Nat → Nat → Op

/-- Arguments of an operation lie in `[0, n)`. -/
def opLt (n : Nat) : Op → Prop
  | .findOp x => x < n
  | .unionOp x y => x < n ∧ y < n

instance opLtDec (n : Nat) (o : Op) : Decidable (opLt n o) :=
  match o with
  | .findOp x => inferInstanceAs (Decidable (x < n))
  | .unionOp x y => inferInstanceAs (Decidable (x < n ∧ y < n))

/-- Apply one operation to the structure (the result of `find` is
discarded, its compression effect kept). -/
def applyOp (s : UF) : Op → UF
  | .findOp x => (find s x).2
  | .unionOp x y => union_sets s x y

/-- Apply a sequence of operations left to right. -/
def applyOps (s : UF) : List Op → UF
  | [] => s
  | o :: os => applyOps (applyOp s o) os

instance decPInv (n : Nat) (p r : Nat → Nat) : Decidable (PInv n p r) := by
  unfold PInv
  infer_instance

instance decInv (s : UF) : Decidable (Inv s) := by
  unfold Inv
  infer_instance

/-- The freshly initialized structure satisfies the invariant. -/
theorem initUF_Inv (n : Nat) : Inv (initUF n) := by
  refine ⟨⟨?_, ?_⟩, ?_⟩
  · intro z hz
    have hz' : z < n := hz
    show (if z < n then z else 0) < n
    rw [if_pos hz']; exact hz'
  · intro z hz hnz
    have hz' : z < n := hz
    exfalso
    apply hnz
    show (if z < n then z else 0) = z
    rw [if_pos hz']
  · show (n : Int) = _
    have : roots (initUF n) = Finset.range n := by
      apply Finset.filter_true_of_mem
      intro z hz
      rw [Finset.mem_range] at hz
      have hz' : z < n := hz
      show (if z < n then z else 0) = z
      rw [if_pos hz']
    rw [this, Finset.card_range]

/-- Under the invariant, `component_count` is between 1 and `n`
(for `n ≥ 1`). -/
theorem count_bounds (s : UF) (hs : Inv s) (hn : 1 ≤ s.n) :
    1 ≤ s.count ∧ s.count ≤ (s.n : Int) := by
  have hmem : rootD s.n s.parent 0 ∈ roots s :=
    mem_roots.mpr ⟨rootD_lt hs.1 hn, rootD_isRoot hs.1 hn⟩
  have h1 : 1 ≤ (roots s).card := Finset.card_pos.mpr ⟨_, hmem⟩
  have h2 : (roots s).card ≤ s.n := by
    calc (roots s).card ≤ (Finset.range s.n).card := Finset.card_filter_le _ _
      _ = s.n := Finset.card_range s.n
  rw [hs.2]
  omega

/-- The decoded C `int` coerced to `Nat` is always `< N` when `N ≥ 1`,
since C truncated remainder satisfies `a % N < N`. -/
theorem tmod_toNat_lt (a : Int) {N : Nat} (hN : 1 ≤ N) :
    (Int.tmod a (N : Int)).toNat < N := by
  have hpos : (0 : Int) < (N : Int) := by exact_mod_cast hN
  have := Int.tmod_lt_of_pos a hpos
  rcases Int.le_or_lt (Int.tmod a (N : Int)) 0 with h | h
  · have : (Int.tmod a (N : Int)).toNat = 0 := by
      rcases Int.le_antisymm_iff.mp rfl with _
      exact Int.toNat_of_nonpos h
    omega
  · rw [Int.toNat_lt (Int.le_of_lt h)]
    exact this

theorem decodePair_fst_lt {N : Nat} (hN : 1 ≤ N) (F a b : Int) :
    (decodePair N F a b).1.toNat < N := by
  simp only [decodePair]
  split
  · exact tmod_toNat_lt _ hN
  · exact tmod_toNat_lt _ hN

theorem decodePair_snd_lt {N : Nat} (hN : 1 ≤ N) (F a b : Int) :
    (decodePair N F a b).2.toNat < N := by
  simp only [decodePair]
  split
  · exact tmod_toNat_lt _ hN
  · exact tmod_toNat_lt _ hN

theorem runQueries_append (l1 l2 : List (Int × Int)) :
    ∀ (i : Nat) (s : MainState),
      runQueries i s (l1 ++ l2) = runQueries (i + l1.length) (runQueries i s l1) l2 := by
  induction l1 with
  | nil => intro i s; simp [runQueries]
  | cons q l1 ih =>
    intro i s
    show runQueries (i + 1) (stepQuery i s q) (l1 ++ l2) = _
    rw [ih (i + 1) (stepQuery i s q)]
    have : i + 1 + l1.length = i + (q :: l1).length := by
      simp [List.length_cons]; omega
    rw [this]
    rfl

theorem stateAfter_zero (N : Nat) (qs : List (Int × Int)) :
    stateAfter N qs 0 = { uf := initUF N, F := 0, out := [] } := rfl

theorem stateAfter_succ (N : Nat) (qs : List (Int × Int)) {i : Nat}
    (hi : i < qs.length) :
    stateAfter N qs (i + 1) = stepQuery i (stateAfter N qs i) (qs.get ⟨i, hi⟩) := by
  unfold stateAfter
  have htake : qs.take (i + 1) = qs.take i ++ [qs.get ⟨i, hi⟩] := by
    rw [List.take_succ, List.getElem?_eq_getElem hi]
    rfl
  rw [htake, runQueries_append]
  have hlen : (qs.take i).length = i := by
    rw [List.length_take]
    omega
  rw [hlen, Nat.zero_add]
  rfl

theorem stateAfter_stable (N : Nat) (qs : List (Int × Int)) {i : Nat}
    (hi : qs.length ≤ i) : stateAfter N qs i = stateAfter N qs qs.length := by
  unfold stateAfter
  rw [List.take_of_length_le hi, List.take_of_length_le (Nat.le_refl _)]

theorem runProgram_eq_stateAfter (N : Nat) (qs : List (Int × Int)) :
    runProgram N qs = stateAfter N qs qs.length := by
  unfold runProgram stateAfter
  rw [List.take_of_length_le (Nat.le_refl _)]

/-- Loop invariant: the structure size equals `N`, the structural
invariant holds, and `F` is between `0` and `i * N` just before query `i`. -/
def LoopInv (N i : Nat) (s : MainState) : Prop :=
  s.uf.n = N ∧ Inv s.uf ∧ 0 ≤ s.F ∧ s.F ≤ (i : Int) * (N : Int)

theorem LoopInv_mk {N i : Nat} {u : UF} {Fv : Int} {t : List String}
    (h1 : u.n = N) (h2 : Inv u) (h3 : 0 ≤ Fv) (h4 : Fv ≤ (i : Int) * (N : Int)) :
    LoopInv N i { uf := u, F := Fv, out := t } :=
  ⟨h1, h2, h3, h4⟩

theorem stepQuery_LoopInv {N i : Nat} {s : MainState} (hN : 1 ≤ N)
    (h : LoopInv N i s) (q : Int × Int) :
    LoopInv N (i + 1) (stepQuery i s q) := by
  obtain ⟨hn, hinv, hF0, hFle⟩ := h
  subst hn
  have hx : (decodePair s.uf.n s.F q.1 q.2).1.toNat < s.uf.n :=
    decodePair_fst_lt hN s.F q.1 q.2
  have hy : (decodePair s.uf.n s.F q.1 q.2).2.toNat < s.uf.n :=
    decodePair_snd_lt hN s.F q.1 q.2
  unfold stepQuery
  by_cases hpar : i % 2 = 0
  · rw [if_pos hpar]
    have huInv : Inv (union_sets s.uf (decodePair s.uf.n s.F q.1 q.2).1.toNat
        (decodePair s.uf.n s.F q.1 q.2).2.toNat) := union_Inv s.uf hinv hx hy
    have hun : (union_sets s.uf (decodePair s.uf.n s.F q.1 q.2).1.toNat
        (decodePair s.uf.n s.F q.1 q.2).2.toNat).n = s.uf.n := union_n _ _ _
    have hbounds := count_bounds _ huInv (by rw [hun]; exact hN)
    have hcastn : ((union_sets s.uf (decodePair s.uf.n s.F q.1 q.2).1.toNat
        (decodePair s.uf.n s.F q.1 q.2).2.toNat).n : Int) = (s.uf.n : Int) := by
      rw [hun]
    rw [hcastn] at hbounds
    refine LoopInv_mk hun huInv (by omega) ?_
    have hexp : ((i : Int) + 1) * ((s.uf.n : Nat) : Int)
        = (i : Int) * s.uf.n + s.uf.n := by ring
    push_cast
    rw [hexp]
    linarith [hbounds.1, hbounds.2, hFle]
  · rw [if_neg hpar]
    have hs1 : Inv (find s.uf (decodePair s.uf.n s.F q.1 q.2).1.toNat).2 :=
      find_Inv s.uf hinv hx
    have hs2 : Inv (find (find s.uf (decodePair s.uf.n s.F q.1 q.2).1.toNat).2
        (decodePair s.uf.n s.F q.1 q.2).2.toNat).2 :=
      find_Inv _ hs1 hy
    have hc2 : (find (find s.uf (decodePair s.uf.n s.F q.1 q.2).1.toNat).2
        (decodePair s.uf.n s.F q.1 q.2).2.toNat).2.count = s.uf.count := rfl
    have hbounds := count_bounds _ hs2 hN
    have hn2cast : ((find (find s.uf (decodePair s.uf.n s.F q.1 q.2).1.toNat).2
        (decodePair s.uf.n s.F q.1 q.2).2.toNat).2.n : Int) = (s.uf.n : Int) := rfl
    rw [hc2, hn2cast] at hbounds
    have hgoal : ∀ t : List String,
        LoopInv s.uf.n (i + 1)
          { uf := (find (find s.uf (decodePair s.uf.n s.F q.1 q.2).1.toNat).2
              (decodePair s.uf.n s.F q.1 q.2).2.toNat).2,
            F := s.F + (find (find s.uf (decodePair s.uf.n s.F q.1 q.2).1.toNat).2
              (decodePair s.uf.n s.F q.1 q.2).2.toNat).2.count,
            out := t } := by
      intro t
      refine LoopInv_mk rfl hs2 (by rw [hc2]; omega) ?_
      rw [hc2]
      have hexp : ((i : Int) + 1) * ((s.uf.n : Nat) : Int)
          = (i : Int) * s.uf.n + s.uf.n := by ring
      push_cast
      rw [hexp]
      linarith [hbounds.1, hbounds.2, hFle]
    split
    · exact hgoal _
    · exact hgoal _

theorem stateAfter_LoopInv (N : Nat) (qs : List (Int × Int)) (hN : 1 ≤ N) :
    ∀ i, LoopInv N i (stateAfter N qs i) := by
  intro i
  induction i with
  | zero =>
    refine ⟨rfl, initUF_Inv N, le_refl 0, by simp [stateAfter, runQueries]⟩
  | succ i ih =>
    by_cases hi : i < qs.length
    · rw [stateAfter_succ N qs hi]
      exact stepQuery_LoopInv hN ih _
    · have h1 : stateAfter N qs (i + 1) = stateAfter N qs qs.length :=
        stateAfter_stable N qs (by omega)
      have h2 : stateAfter N qs i = stateAfter N qs qs.length :=
        stateAfter_stable N qs (by omega)
      rw [h1, ← h2]
      obtain ⟨a, b, c, d⟩ := ih
      refine ⟨a, b, c, ?_⟩
      have hmono : (i : Int) * N ≤ ((i : Int) + 1) * N := by
        have hN0 : (0 : Int) ≤ N := by positivity
        nlinarith
      push_cast
      linarith [d, hmono]

theorem tmod_natCast (m k : Nat) :
    Int.tmod (m : Int) (k : Int) = ((m % k : Nat) : Int) := rfl

theorem toNat64_of_nonneg {a : Int} (h0 : 0 ≤ a) (h64 : a < 2 ^ 64) :
    toNat64 a = a.toNat := by
  unfold toNat64
  rw [Int.emod_eq_of_lt h0 (by exact_mod_cast h64)]

/-- For nonnegative `long long` values below `2^63`, the C XOR agrees with
the mathematical XOR of the corresponding naturals. -/
theorem xor64_eq_natXor {a b : Int} (ha0 : 0 ≤ a) (ha : a < 2 ^ 63)
    (hb0 : 0 ≤ b) (hb : b < 2 ^ 63) :
    xor64 a b = ((a.toNat ^^^ b.toNat : Nat) : Int) := by
  unfold xor64
  rw [toNat64_of_nonneg ha0 (by omega), toNat64_of_nonneg hb0 (by omega)]
  have haN : a.toNat < 2 ^ 63 := by
    rw [Int.toNat_lt ha0]
    exact_mod_cast ha
  have hbN : b.toNat < 2 ^ 63 := by
    rw [Int.toNat_lt hb0]
    exact_mod_cast hb
  have hxor : a.toNat ^^^ b.toNat < 2 ^ 63 := Nat.xor_lt_two_pow haN hbN
  unfold ofTwosComp
  rw [if_pos hxor]

/-- For nonnegative operands and accumulator below `2^63`, the C decoding
agrees with the specification's decoding on naturals. -/
theorem decodePair_eq_specDecode {N : Nat} {F a b : Int}
    (hF0 : 0 ≤ F) (hF : F < 2 ^ 63)
    (ha0 : 0 ≤ a) (ha : a < 2 ^ 63) (hb0 : 0 ≤ b) (hb : b < 2 ^ 63) :
    decodePair N F a b =
      (((specDecode N F.toNat a.toNat b.toNat).1 : Int),
       ((specDecode N F.toNat a.toNat b.toNat).2 : Int)) := by
  unfold decodePair specDecode
  rw [xor64_eq_natXor ha0 ha hF0 hF, xor64_eq_natXor hb0 hb hF0 hF,
      tmod_natCast, tmod_natCast]
  by_cases hxy : (a.toNat ^^^ F.toNat) % N > (b.toNat ^^^ F.toNat) % N
  · rw [if_pos (by exact_mod_cast hxy), if_pos hxy]
  · rw [if_neg (by exact_mod_cast hxy), if_neg hxy]

/-- Under the same conditions both decoded indices are in `[0, N)`. -/
theorem decodePair_range {N : Nat} {F a b : Int} (hN : 1 ≤ N)
    (hF0 : 0 ≤ F) (hF : F < 2 ^ 63)
    (ha0 : 0 ≤ a) (ha : a < 2 ^ 63) (hb0 : 0 ≤ b) (hb : b < 2 ^ 63) :
    0 ≤ (decodePair N F a b).1 ∧ (decodePair N F a b).1 < (N : Int) ∧
    0 ≤ (decodePair N F a b).2 ∧ (decodePair N F a b).2 < (N : Int) := by
  rw [decodePair_eq_specDecode hF0 hF ha0 ha hb0 hb]
  simp only [specDecode]
  have h1 : (a.toNat ^^^ F.toNat) % N < N := Nat.mod_lt _ (by omega)
  have h2 : (b.toNat ^^^ F.toNat) % N < N := Nat.mod_lt _ (by omega)
  split
  · exact ⟨by positivity, by exact_mod_cast h2, by positivity, by exact_mod_cast h1⟩
  · exact ⟨by positivity, by exact_mod_cast h1, by positivity, by exact_mod_cast h2⟩

/-- C1: for `x`, `y` in `[0, n)` with distinct representatives,
`union_sets` merges by rank: the root of strictly greater rank becomes the
parent of the other root (ranks unchanged); on a rank tie `rootX` (the
representative of `x`) becomes the parent of `rootY` and `rank[rootX]`
grows by exactly 1 (all other ranks unchanged); and `component_count`
decreases by exactly 1. -/
theorem c1_union_by_rank (s : UF) (x y : Nat) (hs : Inv s)
    (hx : x < s.n) (hy : y < s.n)
    (hne : (find s x).1 ≠ (find s y).1) :
    (union_sets s x y).count = s.count - 1 ∧
    (s.rank (find s x).1 > s.rank (find s y).1 →
      (union_sets s x y).parent (find s y).1 = (find s x).1 ∧
      (union_sets s x y).rank = s.rank) ∧
    (s.rank (find s x).1 < s.rank (find s y).1 →
      (union_sets s x y).parent (find s x).1 = (find s y).1 ∧
      (union_sets s x y).rank = s.rank) ∧
    (s.rank (find s x).1 = s.rank (find s y).1 →
      (union_sets s x y).parent (find s y).1 = (find s x).1 ∧
      (union_sets s x y).rank (find s x).1 = s.rank (find s x).1 + 1 ∧
      ∀ z, z ≠ (find s x).1 → (union_sets s x y).rank z = s.rank z) := by
  have hfx : (find s x).1 = rootD s.n s.parent x := find_fst s hs hx
  have hfy : (find s y).1 = rootD s.n s.parent y := find_fst s hs hy
  have hne' : rootD s.n s.parent x ≠ rootD s.n s.parent y := by
    rwa [hfx, hfy] at hne
  rw [hfx, hfy, union_eq_merge s hs hx hy hne']
  by_cases hgt : s.rank (rootD s.n s.parent x) > s.rank (rootD s.n s.parent y)
  · rw [if_pos hgt]
    refine ⟨rfl, fun _ => ⟨update_self _ _ _, rfl⟩, fun hlt => absurd hlt (by omega),
      fun heq => absurd heq (by omega)⟩
  · rw [if_neg hgt]
    by_cases hlt : s.rank (rootD s.n s.parent x) < s.rank (rootD s.n s.parent y)
    · rw [if_pos hlt]
      refine ⟨rfl, fun hgt2 => absurd hgt2 (by omega),
        fun _ => ⟨update_self _ _ _, rfl⟩,
        fun heq => absurd heq (by omega)⟩
    · rw [if_neg hlt]
      refine ⟨rfl, fun hgt2 => absurd hgt2 (by omega),
        fun hlt2 => absurd hlt2 (by omega),
        fun _ => ⟨update_self _ _ _, update_self _ _ _, ?_⟩⟩
      intro z hz
      exact update_other _ _ _ z hz

theorem c1_union_by_rank_witness :
    Inv (initUF 2) ∧ (0 : Nat) < (initUF 2).n ∧ (1 : Nat) < (initUF 2).n ∧
    (find (initUF 2) 0).1 ≠ (find (initUF 2) 1).1 ∧
    (union_sets (initUF 2) 0 1).count = (initUF 2).count - 1 ∧
    (union_sets (initUF 2) 0 1).parent 1 = 0 ∧
    (union_sets (initUF 2) 0 1).rank 0 = (initUF 2).rank 0 + 1 :=
  ⟨by decide, by decide, by decide, by decide,
    (c1_union_by_rank (initUF 2) 0 1 (by decide) (by decide) (by decide) (by decide)).1,
    ((c1_union_by_rank (initUF 2) 0 1 (by decide) (by decide) (by decide)
      (by decide)).2.2.2 (by decide)).1,
    ((c1_union_by_rank (initUF 2) 0 1 (by decide) (by decide) (by decide)
      (by decide)).2.2.2 (by decide)).2.1⟩

/-- C6: in every state satisfying the invariant (which holds in every
reachable state), `find(x)` returns a value `y` that is a root —
`parent[y] = y` — and a further `find(y)` returns `y` itself. -/
theorem c6_find_idempotent (s : UF) (x : Nat) (hs : Inv s) (hx : x < s.n) :
    (find s x).2.parent (find s x).1 = (find s x).1 ∧
    (find (find s x).2 (find s x).1).1 = (find s x).1 := by
  have hfx : (find s x).1 = rootD s.n s.parent x := find_fst s hs hx
  have hroot : s.parent (rootD s.n s.parent x) = rootD s.n s.parent x :=
    rootD_isRoot hs.1 hx
  have hroot' : (find s x).2.parent (rootD s.n s.parent x) = rootD s.n s.parent x :=
    (find_roots_iff s hs hx _).mpr hroot
  have hInv' : Inv (find s x).2 := find_Inv s hs hx
  have hlt : rootD s.n s.parent x < s.n := rootD_lt hs.1 hx
  constructor
  · rw [hfx]; exact hroot'
  · rw [hfx]
    have h1 : (find (find s x).2 (rootD s.n s.parent x)).1
        = rootD s.n (find s x).2.parent (rootD s.n s.parent x) :=
      find_fst (find s x).2 hInv' hlt
    rw [h1]
    exact rootD_fix _ hroot'

theorem c6_find_idempotent_witness :
    Inv (initUF 3) ∧ (1 : Nat) < (initUF 3).n ∧
    ((find (initUF 3) 1).2.parent (find (initUF 3) 1).1 = (find (initUF 3) 1).1 ∧
     (find (find (initUF 3) 1).2 (find (initUF 3) 1).1).1 = (find (initUF 3) 1).1) :=
  ⟨by decide, by decide, c6_find_idempotent (initUF 3) 1 (by decide) (by decide)⟩

/-- C10: `find` never changes the partition: two elements have equal
representatives after a `find(x)` call exactly when they did before, and
`find` changes neither `component_count` nor any `rank` entry (path
compression only re-points visited nodes to their existing root). -/
theorem c10_find_preserves_partition (s : UF) (x : Nat) (hs : Inv s) (hx : x < s.n) :
    (∀ u v, u < s.n → v < s.n →
      ((find (find s x).2 u).1 = (find (find s x).2 v).1 ↔
        (find s u).1 = (find s v).1)) ∧
    (find s x).2.count = s.count ∧
    (∀ z, (find s x).2.rank z = s.rank z) ∧
    (find s x).2.n = s.n := by
  have hInv' : Inv (find s x).2 := find_Inv s hs hx
  refine ⟨?_, rfl, fun z => rfl, rfl⟩
  intro u v hu hv
  have h1 : (find (find s x).2 u).1 = rootD s.n (find s x).2.parent u :=
    find_fst (find s x).2 hInv' hu
  have h2 : (find (find s x).2 v).1 = rootD s.n (find s x).2.parent v :=
    find_fst (find s x).2 hInv' hv
  rw [h1, h2, find_rootD_eq s hs hx u hu, find_rootD_eq s hs hx v hv,
      ← find_fst s hs hu, ← find_fst s hs hv]

theorem c10_find_preserves_partition_witness :
    Inv (initUF 3) ∧ (2 : Nat) < (initUF 3).n ∧
    (((find (find (initUF 3) 2).2 0).1 = (find (find (initUF 3) 2).2 1).1 ↔
        (find (initUF 3) 0).1 = (find (initUF 3) 1).1) ∧
     (find (initUF 3) 2).2.count = (initUF 3).count) :=
  ⟨by decide, by decide,
    (c10_find_preserves_partition (initUF 3) 2 (by decide) (by decide)).1 0 1
      (by decide) (by decide),
    (c10_find_preserves_partition (initUF 3) 2 (by decide) (by decide)).2.1⟩

/-- C7 counterexample: in the state reached from `initialize(4)` by
`union(0,1); union(2,3); union(0,2)`, the elements 3 and 1 have the same
representative, yet `union(3,1)` still mutates the parent array (path
compression re-points `parent[3]` from 2 to the root 0), so the call is
not free of side effects. -/
theorem c7_union_noop_counterexample :
    (find (union_sets (union_sets (union_sets (initUF 4) 0 1) 2 3) 0 2) 3).1 =
      (find (union_sets (union_sets (union_sets (initUF 4) 0 1) 2 3) 0 2) 1).1 ∧
    (union_sets (union_sets (union_sets (union_sets (initUF 4) 0 1) 2 3) 0 2)
        3 1).parent 3 ≠
      (union_sets (union_sets (union_sets (initUF 4) 0 1) 2 3) 0 2).parent 3 := by
  decide

/-- C7 (amended): when `find(x) = find(y)` the call `union(x, y)` leaves
`component_count`, every `rank` entry, and the partition into components
unchanged (its only state change is path compression inside existing
components); and a second identical call leaves `component_count`
unchanged, so the `F` contribution re-adds the same value. -/
theorem c7_union_noop_amended (s : UF) (x y : Nat) (hs : Inv s)
    (hx : x < s.n) (hy : y < s.n)
    (heq : (find s x).1 = (find s y).1) :
    (union_sets s x y).count = s.count ∧
    (∀ z, (union_sets s x y).rank z = s.rank z) ∧
    (∀ u v, u < s.n → v < s.n →
      ((find (union_sets s x y) u).1 = (find (union_sets s x y) v).1 ↔
        (find s u).1 = (find s v).1)) ∧
    (union_sets (union_sets s x y) x y).count = (union_sets s x y).count := by
  have heq' : rootD s.n s.parent x = rootD s.n s.parent y := by
    rwa [find_fst s hs hx, find_fst s hs hy] at heq
  rw [union_eq_noop s hs hx hy heq']
  have hs2 : Inv (find (find s x).2 y).2 := s2_Inv s hs hx hy
  refine ⟨rfl, fun z => rfl, ?_, ?_⟩
  · intro u v hu hv
    have h1 : (find (find (find s x).2 y).2 u).1
        = rootD s.n (find (find s x).2 y).2.parent u := find_fst _ hs2 hu
    have h2 : (find (find (find s x).2 y).2 v).1
        = rootD s.n (find (find s x).2 y).2.parent v := find_fst _ hs2 hv
    rw [h1, h2, s2_rootD_eq s hs hx hy hu, s2_rootD_eq s hs hx hy hv,
        ← find_fst s hs hu, ← find_fst s hs hv]
  · have hre2 : rootD (find (find s x).2 y).2.n (find (find s x).2 y).2.parent x
        = rootD (find (find s x).2 y).2.n (find (find s x).2 y).2.parent y := by
      show rootD s.n (find (find s x).2 y).2.parent x
          = rootD s.n (find (find s x).2 y).2.parent y
      rw [s2_rootD_eq s hs hx hy hx, s2_rootD_eq s hs hx hy hy, heq']
    exact union_count_noop _ hs2 hx hy hre2

theorem c7_union_noop_amended_witness :
    Inv (union_sets (initUF 2) 0 1) ∧
    (0 : Nat) < (union_sets (initUF 2) 0 1).n ∧
    (1 : Nat) < (union_sets (initUF 2) 0 1).n ∧
    (find (union_sets (initUF 2) 0 1) 0).1 = (find (union_sets (initUF 2) 0 1) 1).1 ∧
    (union_sets (union_sets (initUF 2) 0 1) 0 1).count =
      (union_sets (initUF 2) 0 1).count ∧
    (union_sets (union_sets (union_sets (initUF 2) 0 1) 0 1) 0 1).count =
      (union_sets (union_sets (initUF 2) 0 1) 0 1).count :=
  ⟨by decide, by decide, by decide, by decide,
    (c7_union_noop_amended (union_sets (initUF 2) 0 1) 0 1 (by decide) (by decide)
      (by decide) (by decide)).1,
    (c7_union_noop_amended (union_sets (initUF 2) 0 1) 0 1 (by decide) (by decide)
      (by decide) (by decide)).2.2.2⟩

/-- Under the structural invariant the only cycles of the parent map on
live elements are the self-loops at roots. -/
theorem no_cycle_of_PInv {n : Nat} {p r : Nat → Nat} (hp : PInv n p r)
    {x : Nat} (hx : x < n) :
    ∀ d, 0 < d → iterP p d x = x → p x = x := by
  intro d hd hcyc
  by_contra hnx
  by_cases hroot : ∃ e, e ≤ d ∧ p (iterP p e x) = iterP p e x
  · obtain ⟨e, he, hre⟩ := hroot
    have hsplit : d = e + (d - e) := by omega
    have hde : iterP p d x = iterP p e x := by
      rw [hsplit, iterP_add, iterP_fix p (d - e) hre]
    rw [hde] at hcyc
    rw [hcyc] at hre
    exact hnx hre
  · push_neg at hroot
    have hchain := rank_strict_chain hp hx hd
      (fun e he' => hroot e (by omega))
    have h0 : iterP p 0 x = x := rfl
    rw [hcyc, h0] at hchain
    exact lt_irrefl _ hchain

theorem applyOp_Inv (s : UF) (hs : Inv s) {o : Op} (ho : opLt s.n o) :
    Inv (applyOp s o) ∧ (applyOp s o).n = s.n := by
  cases o with
  | findOp x => exact ⟨find_Inv s hs ho, rfl⟩
  | unionOp x y => exact ⟨union_Inv s hs ho.1 ho.2, union_n s x y⟩

theorem applyOps_Inv : ∀ (ops : List Op) (s : UF), Inv s →
    (∀ o ∈ ops, opLt s.n o) →
    Inv (applyOps s ops) ∧ (applyOps s ops).n = s.n := by
  intro ops
  induction ops with
  | nil => intro s hs _; exact ⟨hs, rfl⟩
  | cons o os ih =>
    intro s hs hops
    have h1 := applyOp_Inv s hs (hops o (List.mem_cons_self o os))
    have h2 := ih (applyOp s o) h1.1 (fun o' ho' => by
      rw [h1.2]; exact hops o' (List.mem_cons_of_mem o ho'))
    refine ⟨h2.1, ?_⟩
    rw [show applyOps s (o :: os) = applyOps (applyOp s o) os from rfl, h2.2, h1.2]

/-- C5: after `initialize(n)` and any sequence of `find`/`union`
operations on elements of `[0, n)`, the parent map is a forest (the only
cycles through live elements are root self-loops), `find` terminates
(every element reaches a root in fewer than `n` parent steps, so the fuel
`n` of the embedding never runs out), and `component_count` equals the
number of distinct roots reachable via `find`. -/
theorem c5_forest_invariant (n : Nat) (ops : List Op)
    (hops : ∀ o ∈ ops, opLt n o) :
    (∀ x, x < n → ∀ d, 0 < d →
      iterP (applyOps (initUF n) ops).parent d x = x →
      (applyOps (initUF n) ops).parent x = x) ∧
    (∀ x, x < n → ∃ d, d < n ∧
      (applyOps (initUF n) ops).parent
          (iterP (applyOps (initUF n) ops).parent d x) =
        iterP (applyOps (initUF n) ops).parent d x) ∧
    (applyOps (initUF n) ops).count =
      (((Finset.range n).image
        (fun x => (find (applyOps (initUF n) ops) x).1)).card : Int) := by
  obtain ⟨hsInv, hsn0⟩ :=
    applyOps_Inv ops (initUF n) (initUF_Inv n) (fun o ho => hops o ho)
  have hsn : (applyOps (initUF n) ops).n = n := hsn0
  refine ⟨?_, ?_, ?_⟩
  · intro x hx d hd hcyc
    have hx' : x < (applyOps (initUF n) ops).n := by rw [hsn]; exact hx
    exact no_cycle_of_PInv hsInv.1 hx' d hd hcyc
  · intro x hx
    have hx' : x < (applyOps (initUF n) ops).n := by rw [hsn]; exact hx
    obtain ⟨d, hd, hroot⟩ := reach_root hsInv.1 hx'
    refine ⟨d, ?_, hroot⟩
    rw [← hsn]
    exact hd
  · have himg : (Finset.range n).image
        (fun x => (find (applyOps (initUF n) ops) x).1) =
        roots (applyOps (initUF n) ops) := by
      ext z
      simp only [Finset.mem_image, Finset.mem_range]
      constructor
      · rintro ⟨w, hw, rfl⟩
        have hw' : w < (applyOps (initUF n) ops).n := by rw [hsn]; exact hw
        rw [find_fst _ hsInv hw']
        exact mem_roots.mpr ⟨rootD_lt hsInv.1 hw', rootD_isRoot hsInv.1 hw'⟩
      · intro hz
        obtain ⟨hzn, hzp⟩ := mem_roots.mp hz
        refine ⟨z, by rw [← hsn]; exact hzn, ?_⟩
        rw [find_fst _ hsInv hzn]
        exact rootD_fix _ hzp
    rw [himg]
    exact hsInv.2

theorem c5_forest_invariant_witness :
    (∀ o ∈ [Op.unionOp 0 1, Op.findOp 2], opLt 3 o) ∧
    (applyOps (initUF 3) [Op.unionOp 0 1, Op.findOp 2]).count =
      (((Finset.range 3).image
        (fun x => (find (applyOps (initUF 3) [Op.unionOp 0 1, Op.findOp 2]) x).1)).card
        : Int) :=
  ⟨by decide,
    (c5_forest_invariant 3 [Op.unionOp 0 1, Op.findOp 2] (by decide)).2.2⟩

/-- `union_sets` never increases the count, and strictly decreases it
exactly when the two representatives were distinct. -/
theorem union_count_le (s : UF) (hs : Inv s) {x y : Nat}
    (hx : x < s.n) (hy : y < s.n) :
    (union_sets s x y).count ≤ s.count ∧
    ((union_sets s x y).count < s.count ↔ (find s x).1 ≠ (find s y).1) := by
  by_cases hre : rootD s.n s.parent x = rootD s.n s.parent y
  · have hcount := union_count_noop s hs hx hy hre
    rw [hcount]
    refine ⟨le_refl _, ?_⟩
    constructor
    · intro h
      exact absurd h (lt_irrefl _)
    · intro hne
      exfalso
      apply hne
      rw [find_fst s hs hx, find_fst s hs hy, hre]
  · have hcount := (union_merge_Inv s hs hx hy hre).2
    rw [hcount]
    refine ⟨by omega, ?_⟩
    constructor
    · intro _
      rw [find_fst s hs hx, find_fst s hs hy]
      exact hre
    · intro _
      omega

/-- C4: for every initial size `N ≥ 1` and every query stream (well-formed
per the input contract, i.e. nonnegative signed 64-bit operands),
`component_count` stays in `[1, N]` at every point of the run, never
increases across a merge step, and strictly decreases on a merge step
exactly when the decoded elements' representatives were distinct. -/
theorem c4_component_count (N : Nat) (qs : List (Int × Int)) (hN : 1 ≤ N)
    (_hgood : ∀ q ∈ qs, GoodQ q) :
    (∀ i, 1 ≤ (stateAfter N qs i).uf.count ∧
      (stateAfter N qs i).uf.count ≤ (N : Int)) ∧
    (∀ i, (hi : i < qs.length) → i % 2 = 0 →
      (stateAfter N qs (i + 1)).uf.count ≤ (stateAfter N qs i).uf.count ∧
      ((stateAfter N qs (i + 1)).uf.count < (stateAfter N qs i).uf.count ↔
        (find (stateAfter N qs i).uf
            (decodePair N (stateAfter N qs i).F
              (qs.get ⟨i, hi⟩).1 (qs.get ⟨i, hi⟩).2).1.toNat).1 ≠
          (find (stateAfter N qs i).uf
            (decodePair N (stateAfter N qs i).F
              (qs.get ⟨i, hi⟩).1 (qs.get ⟨i, hi⟩).2).2.toNat).1)) := by
  constructor
  · intro i
    obtain ⟨hn, hinv, _, _⟩ := stateAfter_LoopInv N qs hN i
    have hb := count_bounds _ hinv (by rw [hn]; exact hN)
    have hcast : (((stateAfter N qs i).uf.n : Nat) : Int) = (N : Int) := by rw [hn]
    rw [hcast] at hb
    exact hb
  · intro i hi hpar
    obtain ⟨hn, hinv, hF0, hFle⟩ := stateAfter_LoopInv N qs hN i
    rw [stateAfter_succ N qs hi]
    have hstep : (stepQuery i (stateAfter N qs i) (qs.get ⟨i, hi⟩)).uf
        = union_sets (stateAfter N qs i).uf
            (decodePair (stateAfter N qs i).uf.n (stateAfter N qs i).F
              (qs.get ⟨i, hi⟩).1 (qs.get ⟨i, hi⟩).2).1.toNat
            (decodePair (stateAfter N qs i).uf.n (stateAfter N qs i).F
              (qs.get ⟨i, hi⟩).1 (qs.get ⟨i, hi⟩).2).2.toNat := by
      unfold stepQuery
      rw [if_pos hpar]
    rw [hstep, hn]
    have hx : (decodePair N (stateAfter N qs i).F
        (qs.get ⟨i, hi⟩).1 (qs.get ⟨i, hi⟩).2).1.toNat < (stateAfter N qs i).uf.n := by
      rw [hn]
      exact decodePair_fst_lt hN _ _ _
    have hy : (decodePair N (stateAfter N qs i).F
        (qs.get ⟨i, hi⟩).1 (qs.get ⟨i, hi⟩).2).2.toNat < (stateAfter N qs i).uf.n := by
      rw [hn]
      exact decodePair_snd_lt hN _ _ _
    exact union_count_le (stateAfter N qs i).uf hinv hx hy

theorem c4_component_count_witness :
    (1 : Nat) ≤ 1 ∧
    (1 ≤ (stateAfter 1 [((0 : Int), (0 : Int)), ((0 : Int), (0 : Int))] 1).uf.count ∧
      (stateAfter 1 [((0 : Int), (0 : Int)), ((0 : Int), (0 : Int))] 1).uf.count ≤
        ((1 : Nat) : Int)) ∧
    (stateAfter 1 [((0 : Int), (0 : Int)), ((0 : Int), (0 : Int))] 1).uf.count ≤
      (stateAfter 1 [((0 : Int), (0 : Int)), ((0 : Int), (0 : Int))] 0).uf.count :=
  ⟨by decide,
    (c4_component_count 1 [((0 : Int), (0 : Int)), ((0 : Int), (0 : Int))]
      (by decide) (by decide)).1 1,
    ((c4_component_count 1 [((0 : Int), (0 : Int)), ((0 : Int), (0 : Int))]
      (by decide) (by decide)).2 0 (by decide) (by decide)).1⟩

/-- C9: on the concrete input `N = 2`, `Q = 2` with raw query pairs
`(0, 1)` and `(0, 1)`: `F` starts at 0; query 0 decodes to `x = 0`,
`y = 1`, the union merges so `component_count` goes from 2 to 1 and `F`
becomes 1; query 1 decodes to `x = 1`, `y = 0` before the swap, swaps to
`x = 0 ≤ y = 1`, `find(0) = find(1)` holds, and the entire output of the
program is the single line `1`. -/
theorem c9_concrete_example :
    (stateAfter 2 [((0 : Int), (1 : Int)), ((0 : Int), (1 : Int))] 0).uf.count = 2 ∧
    (stateAfter 2 [((0 : Int), (1 : Int)), ((0 : Int), (1 : Int))] 0).F = 0 ∧
    decodePair 2 0 0 1 = (0, 1) ∧
    (stateAfter 2 [((0 : Int), (1 : Int)), ((0 : Int), (1 : Int))] 1).uf.count = 1 ∧
    (stateAfter 2 [((0 : Int), (1 : Int)), ((0 : Int), (1 : Int))] 1).F = 1 ∧
    Int.tmod (xor64 0 1) 2 = 1 ∧
    Int.tmod (xor64 1 1) 2 = 0 ∧
    decodePair 2 1 0 1 = (0, 1) ∧
    (find (stateAfter 2 [((0 : Int), (1 : Int)), ((0 : Int), (1 : Int))] 1).uf 0).1 =
      (find (stateAfter 2 [((0 : Int), (1 : Int)), ((0 : Int), (1 : Int))] 1).uf 1).1 ∧
    (runProgram 2 [((0 : Int), (1 : Int)), ((0 : Int), (1 : Int))]).out = ["1"] := by
  decide

/-- The accumulator stays below `2^63` as long as `N` and `Q` fit a C
`int`, because `F ≤ i * N < 2^31 * 2^31`. -/
theorem stateAfter_F_lt (N : Nat) (qs : List (Int × Int)) (hN : 1 ≤ N)
    (hN31 : N < 2 ^ 31) (hQ : qs.length < 2 ^ 31) {i : Nat} (hi : i ≤ qs.length) :
    (stateAfter N qs i).F < 2 ^ 63 := by
  obtain ⟨_, _, _, hFle⟩ := stateAfter_LoopInv N qs hN i
  have hi31 : (i : Int) < 2 ^ 31 := by
    have : i < 2 ^ 31 := by omega
    exact_mod_cast this
  have hN31I : (N : Int) < 2 ^ 31 := by exact_mod_cast hN31
  have h0i : (0 : Int) ≤ (i : Int) := by positivity
  have h0N : (0 : Int) ≤ (N : Int) := by positivity
  nlinarith

/-- C2: at every query, the decoded pair is exactly the specification's
`x = (a XOR F) mod N`, `y = (b XOR F) mod N` with the swap when `x > y`,
computed from the accumulator value `F` as it stood BEFORE the query
(`stateAfter N qs i` is the state with only queries `0..i-1` applied, and
the step from it to `stateAfter N qs (i+1)` decodes with its `F`). -/
theorem c2_decode_uses_prior_F (N : Nat) (qs : List (Int × Int)) (hN : 1 ≤ N)
    (hN31 : N < 2 ^ 31) (hQ : qs.length < 2 ^ 31)
    (hgood : ∀ q ∈ qs, GoodQ q) :
    ∀ i, (hi : i < qs.length) →
      stateAfter N qs (i + 1) = stepQuery i (stateAfter N qs i) (qs.get ⟨i, hi⟩) ∧
      (stateAfter N qs i).uf.n = N ∧
      decodePair N (stateAfter N qs i).F (qs.get ⟨i, hi⟩).1 (qs.get ⟨i, hi⟩).2 =
        ((((specDecode N (stateAfter N qs i).F.toNat (qs.get ⟨i, hi⟩).1.toNat
            (qs.get ⟨i, hi⟩).2.toNat).1 : Nat) : Int),
         (((specDecode N (stateAfter N qs i).F.toNat (qs.get ⟨i, hi⟩).1.toNat
            (qs.get ⟨i, hi⟩).2.toNat).2 : Nat) : Int)) := by
  intro i hi
  obtain ⟨hn, hinv, hF0, hFle⟩ := stateAfter_LoopInv N qs hN i
  have hFlt : (stateAfter N qs i).F < 2 ^ 63 :=
    stateAfter_F_lt N qs hN hN31 hQ (Nat.le_of_lt hi)
  obtain ⟨ha0, ha, hb0, hb⟩ := hgood _ (qs.get_mem i hi)
  exact ⟨stateAfter_succ N qs hi, hn,
    decodePair_eq_specDecode hF0 hFlt ha0 ha hb0 hb⟩

theorem c2_decode_uses_prior_F_witness :
    (1 : Nat) ≤ 2 ∧ (2 : Nat) < 2 ^ 31 ∧
    stateAfter 2 [((0 : Int), (1 : Int))] 1 =
      stepQuery 0 (stateAfter 2 [((0 : Int), (1 : Int))] 0)
        (((0 : Int), (1 : Int))) ∧
    decodePair 2 (stateAfter 2 [((0 : Int), (1 : Int))] 0).F 0 1 =
      ((((specDecode 2 (stateAfter 2 [((0 : Int), (1 : Int))] 0).F.toNat 0 1).1 : Nat) : Int),
       (((specDecode 2 (stateAfter 2 [((0 : Int), (1 : Int))] 0).F.toNat 0 1).2 : Nat) : Int)) :=
  ⟨by decide, by decide,
    (c2_decode_uses_prior_F 2 [((0 : Int), (1 : Int))] (by decide) (by decide)
      (by decide) (by decide) 0 (by decide)).1,
    (c2_decode_uses_prior_F 2 [((0 : Int), (1 : Int))] (by decide) (by decide)
      (by decide) (by decide) 0 (by decide)).2.2⟩

/-- C8 counterexample: the raw pair `(a, b) = (-1, 0)` fits a 64-bit
signed integer, yet with `N = 2` and the initial accumulator `F = 0` the
program's decoding gives `x = (-1 XOR 0) % 2 = -1`, which does NOT lie in
`[0, 2)` — C's `%` truncates toward zero, so a negative operand produces a
negative index and an out-of-bounds array access. -/
theorem c8_in_range_counterexample :
    (decodePair 2 (stateAfter 2 [((-1 : Int), (0 : Int))] 0).F (-1) 0).1 = -1 ∧
    ¬(0 ≤ (decodePair 2 (stateAfter 2 [((-1 : Int), (0 : Int))] 0).F (-1) 0).1) := by
  decide

/-- C8 (amended): if additionally every raw operand is NONNEGATIVE (and
`N`, `Q` fit a C `int`), then every decoded index of every query lies in
`[0, N)`, and every `parent` entry read or written by `find`/`union`
during the loop stays inside `[0, N)`, so all array accesses are in
bounds. -/
theorem c8_decoded_in_range (N : Nat) (qs : List (Int × Int))
    (hN : 1 ≤ N) (hN31 : N < 2 ^ 31) (hQ : qs.length < 2 ^ 31)
    (hgood : ∀ q ∈ qs, GoodQ q) :
    ∀ i, (hi : i < qs.length) →
      (0 ≤ (decodePair N (stateAfter N qs i).F
          (qs.get ⟨i, hi⟩).1 (qs.get ⟨i, hi⟩).2).1 ∧
        (decodePair N (stateAfter N qs i).F
          (qs.get ⟨i, hi⟩).1 (qs.get ⟨i, hi⟩).2).1 < (N : Int) ∧
        0 ≤ (decodePair N (stateAfter N qs i).F
          (qs.get ⟨i, hi⟩).1 (qs.get ⟨i, hi⟩).2).2 ∧
        (decodePair N (stateAfter N qs i).F
          (qs.get ⟨i, hi⟩).1 (qs.get ⟨i, hi⟩).2).2 < (N : Int)) ∧
      (∀ z, z < N → (stateAfter N qs i).uf.parent z < N) := by
  intro i hi
  obtain ⟨hn, hinv, hF0, hFle⟩ := stateAfter_LoopInv N qs hN i
  have hFlt : (stateAfter N qs i).F < 2 ^ 63 :=
    stateAfter_F_lt N qs hN hN31 hQ (Nat.le_of_lt hi)
  obtain ⟨ha0, ha, hb0, hb⟩ := hgood _ (qs.get_mem i hi)
  refine ⟨decodePair_range hN hF0 hFlt ha0 ha hb0 hb, ?_⟩
  intro z hz
  have hz' : z < (stateAfter N qs i).uf.n := by rw [hn]; exact hz
  have hp := hinv.1.1 z hz'
  rw [hn] at hp
  exact hp

theorem c8_decoded_in_range_witness :
    (1 : Nat) ≤ 1 ∧ (1 : Nat) < 2 ^ 31 ∧
    0 ≤ (decodePair 1 (stateAfter 1 [((0 : Int), (0 : Int))] 0).F 0 0).1 ∧
    (decodePair 1 (stateAfter 1 [((0 : Int), (0 : Int))] 0).F 0 0).1 < ((1 : Nat) : Int) ∧
    0 ≤ (decodePair 1 (stateAfter 1 [((0 : Int), (0 : Int))] 0).F 0 0).2 ∧
    (decodePair 1 (stateAfter 1 [((0 : Int), (0 : Int))] 0).F 0 0).2 < ((1 : Nat) : Int) :=
  ⟨by decide, by decide,
    ((c8_decoded_in_range 1 [((0 : Int), (0 : Int))] (by decide) (by decide)
      (by decide) (by decide) 0 (by decide)).1).1,
    ((c8_decoded_in_range 1 [((0 : Int), (0 : Int))] (by decide) (by decide)
      (by decide) (by decide) 0 (by decide)).1).2.1,
    ((c8_decoded_in_range 1 [((0 : Int), (0 : Int))] (by decide) (by decide)
      (by decide) (by decide) 0 (by decide)).1).2.2.1,
    ((c8_decoded_in_range 1 [((0 : Int), (0 : Int))] (by decide) (by decide)
      (by decide) (by decide) 0 (by decide)).1).2.2.2⟩

theorem stepQuery_out_length (i : Nat) (s : MainState) (q : Int × Int) :
    (stepQuery i s q).out.length =
      s.out.length + (if i % 2 = 1 then 1 else 0) := by
  unfold stepQuery
  by_cases h : i % 2 = 0
  · rw [if_pos h, if_neg (by omega : ¬i % 2 = 1)]
    rfl
  · rw [if_neg h, if_pos (by omega : i % 2 = 1)]
    split
    · show (s.out ++ ["1"]).length = s.out.length + 1
      rw [List.length_append]
      rfl
    · show (s.out ++ ["0"]).length = s.out.length + 1
      rw [List.length_append]
      rfl

theorem runQueries_out_length :
    ∀ (qs : List (Int × Int)) (i : Nat) (s : MainState),
      (runQueries i s qs).out.length = s.out.length + oddCount i qs.length := by
  intro qs
  induction qs with
  | nil => intro i s; rfl
  | cons q qs ih =>
    intro i s
    show (runQueries (i + 1) (stepQuery i s q) qs).out.length = _
    rw [ih (i + 1) (stepQuery i s q), stepQuery_out_length]
    show _ = s.out.length + ((if i % 2 = 1 then 1 else 0) + oddCount (i + 1) qs.length)
    omega

theorem oddCount_eq : ∀ (m i : Nat), oddCount i m = (m + i % 2) / 2 := by
  intro m
  induction m with
  | zero => intro i; show 0 = (0 + i % 2) / 2; omega
  | succ m ih =>
    intro i
    show (if i % 2 = 1 then 1 else 0) + oddCount (i + 1) m = (m + 1 + i % 2) / 2
    rw [ih (i + 1)]
    by_cases h : i % 2 = 1
    · rw [if_pos h]
      omega
    · rw [if_neg h]
      omega

/-- C3: the query loop alternates purely by position parity: at even index
`i` the step decodes `(x, y)`, runs `union_sets(x, y)` and adds the
resulting `component_count` to `F` with no output; at odd index `i` the
step decodes `(x, y)`, emits exactly one line — `1` if
`find(x) = find(y)`, else `0` — appended in encounter order, and adds
`component_count` to `F`; over the whole run exactly one line is produced
per odd-indexed query, i.e. `⌊Q / 2⌋` lines in total. -/
theorem c3_alternation :
    (∀ (i : Nat) (s : MainState) (q : Int × Int), i % 2 = 0 →
      stepQuery i s q =
        { uf := union_sets s.uf (decodePair s.uf.n s.F q.1 q.2).1.toNat
            (decodePair s.uf.n s.F q.1 q.2).2.toNat,
          F := s.F + (union_sets s.uf (decodePair s.uf.n s.F q.1 q.2).1.toNat
            (decodePair s.uf.n s.F q.1 q.2).2.toNat).count,
          out := s.out }) ∧
    (∀ (i : Nat) (s : MainState) (q : Int × Int), i % 2 = 1 →
      stepQuery i s q =
        { uf := (find (find s.uf (decodePair s.uf.n s.F q.1 q.2).1.toNat).2
            (decodePair s.uf.n s.F q.1 q.2).2.toNat).2,
          F := s.F + (find (find s.uf (decodePair s.uf.n s.F q.1 q.2).1.toNat).2
            (decodePair s.uf.n s.F q.1 q.2).2.toNat).2.count,
          out := s.out ++
            [if (find s.uf (decodePair s.uf.n s.F q.1 q.2).1.toNat).1 =
                (find (find s.uf (decodePair s.uf.n s.F q.1 q.2).1.toNat).2
                  (decodePair s.uf.n s.F q.1 q.2).2.toNat).1
             then "1" else "0"] }) ∧
    (∀ (N : Nat) (qs : List (Int × Int)),
      (runProgram N qs).out.length = qs.length / 2) := by
  refine ⟨?_, ?_, ?_⟩
  · intro i s q h
    unfold stepQuery
    rw [if_pos h]
  · intro i s q h
    unfold stepQuery
    rw [if_neg (by omega : ¬i % 2 = 0)]
    by_cases heq : (find s.uf (decodePair s.uf.n s.F q.1 q.2).1.toNat).1 =
        (find (find s.uf (decodePair s.uf.n s.F q.1 q.2).1.toNat).2
          (decodePair s.uf.n s.F q.1 q.2).2.toNat).1
    · rw [if_pos heq, if_pos heq]
    · rw [if_neg heq, if_neg heq]
  · intro N qs
    show (runQueries 0 { uf := initUF N, F := 0, out := [] } qs).out.length = _
    rw [runQueries_out_length qs 0 { uf := initUF N, F := 0, out := [] },
        oddCount_eq qs.length 0]
    show 0 + (qs.length + 0 % 2) / 2 = qs.length / 2
    omega

theorem c3_alternation_witness :
    stepQuery 2 { uf := initUF 1, F := 0, out := [] } ((0 : Int), (0 : Int)) =
      { uf := union_sets (initUF 1) (decodePair 1 0 0 0).1.toNat
          (decodePair 1 0 0 0).2.toNat,
        F := 0 + (union_sets (initUF 1) (decodePair 1 0 0 0).1.toNat
          (decodePair 1 0 0 0).2.toNat).count,
        out := [] } ∧
    stepQuery 1 { uf := initUF 1, F := 0, out := [] } ((0 : Int), (0 : Int)) =
      { uf := (find (find (initUF 1) (decodePair 1 0 0 0).1.toNat).2
          (decodePair 1 0 0 0).2.toNat).2,
        F := 0 + (find (find (initUF 1) (decodePair 1 0 0 0).1.toNat).2
          (decodePair 1 0 0 0).2.toNat).2.count,
        out := [] ++
          [if (find (initUF 1) (decodePair 1 0 0 0).1.toNat).1 =
              (find (find (initUF 1) (decodePair 1 0 0 0).1.toNat).2
                (decodePair 1 0 0 0).2.toNat).1
           then "1" else "0"] } ∧
    (runProgram 1 [((0 : Int), (0 : Int)), ((0 : Int), (0 : Int))]).out.length = 2 / 2 :=
  ⟨c3_alternation.1 2 { uf := initUF 1, F := 0, out := [] } ((0 : Int), (0 : Int)) rfl,
   c3_alternation.2.1 1 { uf := initUF 1, F := 0, out := [] } ((0 : Int), (0 : Int)) rfl,
   c3_alternation.2.2 1 [((0 : Int), (0 : Int)), ((0 : Int), (0 : Int))]⟩

end Vexum
